import Mathlib

/-!
Shallow embedding of `src/app.py`, a small Streamlit tool that forwards a coding
question to the Tavily search API and extracts code snippets from the results.

The extraction core is the Python function `extract_code_blocks`, built on

  re.compile(r'```(?:python)?\n(.*?)```|<code>(.*?)</code>|'
             r'(?:def|class)\s+\w+.*?:\n(?:    .*\n)+', re.DOTALL)

followed by `findall`, joining the non-blank capture groups of each match and
cleaning the result.  We embed the three alternation branches as dedicated
matchers over `List Char`, and `findall`'s leftmost non-overlapping scan as a
fuel-indexed recursion (`findallGo`); the fuel `s.length` is sufficient because
every match consumes at least one character (`tryMatch_shrinks` below).

Character classes model the ASCII fragment of Python's `\s` and `\w` (the
inputs of interest are ASCII; Unicode whitespace is not modelled).  The regex
uses `re.DOTALL`, so `.` matches newlines; the embedded matchers therefore let
captured regions span lines freely.
-/

namespace CodeSearch

/-- ASCII whitespace: the characters of Python's regex class `\s` restricted to
ASCII, i.e. space, tab, newline, carriage return, vertical tab, form feed.
Also the class used by `str.strip()` on ASCII text. -/
def isSpaceC (c : Char) : Bool :=
  c == ' ' || c == '\t' || c == '\n' || c == '\r' || c == '\x0b' || c == '\x0c'

/-- ASCII word characters: Python's regex class `\w` restricted to ASCII. -/
def isWordC (c : Char) : Bool :=
  c.isAlphanum || c == '_'

/-- Python `str.strip()` on ASCII text: drop whitespace from both ends. -/
def strip (l : List Char) : List Char :=
  ((l.dropWhile isSpaceC).reverse.dropWhile isSpaceC).reverse

/-- The substitution `re.sub(r'\s+$', '', block)`: remove the trailing
whitespace run (if any). -/
def rstripWS (l : List Char) : List Char :=
  (l.reverse.dropWhile isSpaceC).reverse

/-- Split `s` at the first occurrence of `pat`: returns `(before, after)` with
`s = before ++ pat ++ after` and no occurrence of `pat` starting inside
`before`.  This is the search a lazy `(.*?)` followed by the literal `pat`
performs under `re.DOTALL`.  `none` when `pat` does not occur. -/
def splitAtFirst (pat : List Char) : List Char → Option (List Char × List Char)
  | [] => if pat.isEmpty then some ([], []) else none
  | c :: rest =>
    if pat.isPrefixOf (c :: rest) then some ([], (c :: rest).drop pat.length)
    else
      match splitAtFirst pat rest with
      | some (b, a) => some (c :: b, a)
      | none => none

/-- The suffix of `v` strictly after its last newline, or `none` when `v`
contains no newline.  This is where a greedy `.*` followed by `\n` (under
`re.DOTALL`, with nothing after it) ends its match. -/
def afterLastNewline : List Char → Option (List Char)
  | [] => none
  | c :: rest =>
    match afterLastNewline rest with
    | some r => some r
    | none => if c == '\n' then some rest else none

/-- Branch 1 of the regex at the current position: ```` ```(?:python)?\n(.*?)``` ````.
The greedy optional group first tries the literal `python`; if the rest of the
branch then fails (in particular when no closing fence exists) the fallback
needs `\n` right after the backticks, which cannot hold when `python` was
present — so each arm below stands alone.  Returns the captured group and the
remainder of the text after the match. -/
def fenceMatch (s : List Char) : Option (List Char × List Char) :=
  if (("```python\n").toList).isPrefixOf s then
    splitAtFirst (("```").toList) (s.drop 10)
  else if (("```\n").toList).isPrefixOf s then
    splitAtFirst (("```").toList) (s.drop 4)
  else none

/-- Branch 2 of the regex at the current position: `<code>(.*?)</code>`. -/
def codeTagMatch (s : List Char) : Option (List Char × List Char) :=
  if (("<code>").toList).isPrefixOf s then
    splitAtFirst (("</code>").toList) (s.drop 6)
  else none

/-- The trailing part of branch 3 after `(?:def|class)\s+\w+`: the lazy `.*?`
tries each later `:` in turn (under `re.DOTALL` it may cross lines); a
candidate succeeds when the `:` is followed by `\n`, four spaces, and — for
`(?:    .*\n)+` with a greedy dotall `.*` — at least one later newline, the
match then extending through the LAST newline of the text.  Fuel decreases at
each candidate; `u.length` is sufficient since each step strictly shortens
the text (`colonScan_shrinks`). -/
def colonScan : Nat → List Char → Option (List Char)
  | 0, _ => none
  | fuel + 1, u =>
    match splitAtFirst ([':']) u with
    | none => none
    | some (_, after) =>
      if (("\n    ").toList).isPrefixOf after then
        match afterLastNewline (after.drop 5) with
        | some rest => some rest
        | none => colonScan fuel after
      else colonScan fuel after

/-- Branch 3 of the regex at the current position:
`(?:def|class)\s+\w+.*?:\n(?:    .*\n)+`.  This branch has NO capture group in
the source, so a successful match only yields the remainder of the text.
`\s+` must take the maximal whitespace run (shortening it would put `\w` on a
whitespace character), and the first character after it must be a word
character; since no `:` can occur inside a `\w` run, the `:` candidates of the
lazy `.*?` are exactly the colons after that first word character.  This is
the part after the keyword: `\s+\w+.*?:\n(?:    .*\n)+` applied to the text
`t` that follows `def`/`class`. -/
def defClassAfterKw (t : List Char) : Option (List Char) :=
  if (t.takeWhile isSpaceC).isEmpty then none
  else
    match t.drop (t.takeWhile isSpaceC).length with
    | [] => none
    | c :: rest2 => if isWordC c then colonScan rest2.length rest2 else none

/-- Branch 3 of the regex at the current position:
`(?:def|class)\s+\w+.*?:\n(?:    .*\n)+`.  This branch has NO capture group in
the source, so a successful match only yields the remainder of the text. -/
def defClassMatch (s : List Char) : Option (List Char) :=
  if (("def").toList).isPrefixOf s then defClassAfterKw (s.drop 3)
  else if (("class").toList).isPrefixOf s then defClassAfterKw (s.drop 5)
  else none

/-- One attempt of the full alternation at the current position, in the order
the source writes it (fence, `<code>`, def/class).  Returns the pair of capture
groups — `findall` turns an unmatched group into the empty string — and the
remaining text after the match. -/
def tryMatch (s : List Char) : Option ((List Char × List Char) × List Char) :=
  match fenceMatch s with
  | some (g, rest) => some ((g, []), rest)
  | none =>
    match codeTagMatch s with
    | some (g, rest) => some (([], g), rest)
    | none =>
      match defClassMatch s with
      | some rest => some (([], []), rest)
      | none => none

/-- The scan of `re.findall`: leftmost, non-overlapping; on failure advance one
character, on success resume after the match.  Records the start offset of
each match alongside its capture groups. -/
def findallGo : Nat → Nat → List Char → List (Nat × (List Char × List Char))
  | 0, _, _ => []
  | _ + 1, _, [] => []
  | fuel + 1, pos, c :: rest =>
    match tryMatch (c :: rest) with
    | some (groups, after) =>
      (pos, groups) :: findallGo fuel (pos + ((c :: rest).length - after.length)) after
    | none => findallGo fuel (pos + 1) rest

/-- All matches of the combined pattern with their start offsets, in scan
order. -/
def findallPos (s : List Char) : List (Nat × (List Char × List Char)) :=
  findallGo s.length 0 s

/-- `code_pattern.findall(content)`: the capture-group tuples, in scan order. -/
def findall (s : List Char) : List (List Char × List Char) :=
  (findallPos s).map Prod.snd

/-- Python `'\n'.join`. -/
def joinNL : List (List Char) → List Char
  | [] => []
  | [g] => g
  | g :: gs => g ++ ('\n' :: joinNL gs)

/-- The substitution `re.sub(r'^\s*\n', '', block)` (no MULTILINE, so `^` is
the start of the string): the greedy `\s*` makes the match run through the
last newline inside the maximal leading whitespace run, removing the leading
blank lines but keeping the indentation of the first non-blank line. -/
def cleanLead (b : List Char) : List Char :=
  let w := b.takeWhile isSpaceC
  match afterLastNewline w with
  | some r => r ++ b.drop w.length
  | none => b

/-- The body of the `for match in matches` loop: join the capture groups that
are non-blank (`if m.strip()`), skip the result if falsy (empty), otherwise
clean leading blank lines and trailing whitespace and emit it. -/
def processMatch (m : List Char × List Char) : Option (List Char) :=
  let kept := [m.1, m.2].filter (fun g => !(strip g).isEmpty)
  let block := joinNL kept
  if block.isEmpty then none
  else some (rstripWS (cleanLead block))

/-- `extract_code_blocks` from `src/app.py`: guard falsy input, run the
combined pattern, process each match in order. -/
def extract_code_blocks (content : String) : List String :=
  if content = ("") then []
  else ((findall content.data).filterMap processMatch).map (fun l => String.mk l)

/-- The Python parameter is `Optional`-tolerant: `if not content` also catches
`None`.  The `none` case of the embedded wrapper mirrors that guard. -/
def extract_code_blocks_opt : Option String → List String
  | none => []
  | some s => extract_code_blocks s

/-- The fixed domain filter appended to every question (the OR-joined
`site:` terms of lines 30–33 of `src/app.py`), without the separating
space. -/
def domain_filter_clause : String :=
  ("site:geeksforgeeks.org OR site:stackoverflow.com OR site:w3schools.com OR site:codegrepper.com OR site:realpython.com")

/-- The query built inside `search_coding_answers` (lines 30–33): the f-string
interpolation of the question followed by the domain filter. -/
def search_query (question : String) : String :=
  question ++ (" site:geeksforgeeks.org OR site:stackoverflow.com OR site:w3schools.com OR site:codegrepper.com OR site:realpython.com")

/-- `get_tavily_client`: the outcome of `TavilyClient(api_key=st.secrets[...])`
is external, so it is passed in as an `Except`; an exception is caught, an
error message is displayed (`st.error`, modelled as the message list), and
`None` is returned. -/
def get_tavily_client {C : Type} (init : Except String C) : Option C × List String :=
  match init with
  | Except.ok c => (some c, [])
  | Except.error e => (none, [("Failed to initialize search client: ") ++ e])

/-- `search_coding_answers`: initialize the client (returning `None` on
failure), build the site-restricted query, and call the provider inside
`try/except`, converting any exception into a displayed message and `None`.
The provider call is external and passed in as `call`. -/
def search_coding_answers {C R : Type} (init : Except String C)
    (call : C → String → Except String R) (question : String) :
    Option R × List String :=
  match get_tavily_client init with
  | (none, msgs) => (none, msgs)
  | (some client, msgs) =>
    match call client (search_query question) with
    | Except.ok response => (some response, msgs)
    | Except.error e => (none, msgs ++ [("Search failed: ") ++ e])

/-! ### Basic facts about the matchers -/

theorem splitAtFirst_append {pat : List Char} :
    ∀ {s b a : List Char}, splitAtFirst pat s = some (b, a) → s = b ++ (pat ++ a) := by
  intro s
  induction s with
  | nil =>
    intro b a h
    unfold splitAtFirst at h
    split at h
    · next hp =>
      rw [List.isEmpty_iff] at hp
      simp only [Option.some.injEq, Prod.mk.injEq] at h
      obtain ⟨hb, ha⟩ := h
      subst hb; subst ha; subst hp
      rfl
    · exact absurd h (by simp)
  | cons c rest ih =>
    intro b a h
    unfold splitAtFirst at h
    split at h
    · next hp =>
      simp only [Option.some.injEq, Prod.mk.injEq] at h
      obtain ⟨hb, ha⟩ := h
      subst hb; subst ha
      rw [List.isPrefixOf_iff_prefix] at hp
      obtain ⟨t, ht⟩ := hp
      rw [← ht, List.drop_left]
      simp
    · split at h
      · next b' a' hsp =>
        simp only [Option.some.injEq, Prod.mk.injEq] at h
        obtain ⟨hb, ha⟩ := h
        subst hb; subst ha
        simpa using congrArg (c :: ·) (ih hsp)
      · exact absurd h (by simp)

theorem splitAtFirst_shrinks {pat s b a : List Char} (hpat : pat ≠ [])
    (h : splitAtFirst pat s = some (b, a)) : a.length < s.length := by
  have hs := splitAtFirst_append h
  have : s.length = b.length + (pat.length + a.length) := by
    rw [hs]; simp
  have hp : 0 < pat.length := List.length_pos.mpr hpat
  omega

theorem afterLastNewline_shrinks :
    ∀ {v r : List Char}, afterLastNewline v = some r → r.length < v.length := by
  intro v
  induction v with
  | nil => intro r h; simp [afterLastNewline] at h
  | cons c rest ih =>
    intro r h
    unfold afterLastNewline at h
    split at h
    · next r' hrec =>
      simp only [Option.some.injEq] at h
      subst h
      exact Nat.lt_trans (ih hrec) (by simp)
    · split at h
      · simp only [Option.some.injEq] at h
        subst h
        simp
      · exact absurd h (by simp)

theorem afterLastNewline_eq_none :
    ∀ {v : List Char}, afterLastNewline v = none → '\n' ∉ v := by
  intro v
  induction v with
  | nil => intro _ h; simp at h
  | cons c rest ih =>
    intro h
    unfold afterLastNewline at h
    split at h
    · exact absurd h (by simp)
    · next hrec =>
      split at h
      · exact absurd h (by simp)
      · next hc =>
        intro hmem
        rcases List.mem_cons.mp hmem with h1 | h1
        · exact hc (by rw [h1]; simp)
        · exact ih hrec h1

theorem afterLastNewline_no_nl :
    ∀ {v r : List Char}, afterLastNewline v = some r → '\n' ∉ r := by
  intro v
  induction v with
  | nil => intro r h; simp [afterLastNewline] at h
  | cons c rest ih =>
    intro r h
    unfold afterLastNewline at h
    split at h
    · next r' hrec =>
      simp only [Option.some.injEq] at h
      subst h
      exact ih hrec
    · next hrec =>
      split at h
      · simp only [Option.some.injEq] at h
        subst h
        exact afterLastNewline_eq_none hrec
      · exact absurd h (by simp)

theorem afterLastNewline_mem :
    ∀ {v r : List Char}, afterLastNewline v = some r → ∀ x ∈ r, x ∈ v := by
  intro v
  induction v with
  | nil => intro r h; simp [afterLastNewline] at h
  | cons c rest ih =>
    intro r h x hx
    unfold afterLastNewline at h
    split at h
    · next r' hrec =>
      simp only [Option.some.injEq] at h
      subst h
      exact List.mem_cons_of_mem _ (ih hrec x hx)
    · split at h
      · simp only [Option.some.injEq] at h
        subst h
        exact List.mem_cons_of_mem _ hx
      · exact absurd h (by simp)

theorem colonScan_shrinks :
    ∀ (fuel : Nat) {u r : List Char}, colonScan fuel u = some r → r.length < u.length := by
  intro fuel
  induction fuel with
  | zero => intro u r h; simp [colonScan] at h
  | succ n ih =>
    intro u r h
    unfold colonScan at h
    split at h
    · exact absurd h (by simp)
    · next b after hsp =>
      have hlen : after.length < u.length := splitAtFirst_shrinks (by simp) hsp
      split at h
      · split at h
        · next rest hal =>
          simp only [Option.some.injEq] at h
          subst h
          have h1 := afterLastNewline_shrinks hal
          have h2 : (after.drop 5).length ≤ after.length := by simp
          omega
        · have := ih h
          omega
      · have := ih h
        omega

theorem fenceMatch_shrinks {s g r : List Char}
    (h : fenceMatch s = some (g, r)) : r.length < s.length := by
  unfold fenceMatch at h
  split at h
  · have := splitAtFirst_shrinks (by decide) h
    have h2 : (s.drop 10).length ≤ s.length := by simp
    omega
  · split at h
    · have := splitAtFirst_shrinks (by decide) h
      have h2 : (s.drop 4).length ≤ s.length := by simp
      omega
    · exact absurd h (by simp)

theorem codeTagMatch_shrinks {s g r : List Char}
    (h : codeTagMatch s = some (g, r)) : r.length < s.length := by
  unfold codeTagMatch at h
  split at h
  · have := splitAtFirst_shrinks (by decide) h
    have h2 : (s.drop 6).length ≤ s.length := by simp
    omega
  · exact absurd h (by simp)

theorem defClassAfterKw_shrinks {t r : List Char}
    (h : defClassAfterKw t = some r) : r.length < t.length := by
  unfold defClassAfterKw at h
  split at h
  · exact absurd h (by simp)
  · split at h
    · exact absurd h (by simp)
    · next c rest2 heq =>
      split at h
      · have h1 := colonScan_shrinks _ h
        have h2 := congrArg List.length heq
        simp only [List.length_drop, List.length_cons] at h2
        omega
      · exact absurd h (by simp)

theorem defClassMatch_shrinks {s r : List Char}
    (h : defClassMatch s = some r) : r.length < s.length := by
  unfold defClassMatch at h
  split at h
  · have := defClassAfterKw_shrinks h
    have h2 : (s.drop 3).length ≤ s.length := by simp
    omega
  · split at h
    · have := defClassAfterKw_shrinks h
      have h2 : (s.drop 5).length ≤ s.length := by simp
      omega
    · exact absurd h (by simp)

theorem tryMatch_shrinks {s : List Char} {g : List Char × List Char} {r : List Char}
    (h : tryMatch s = some (g, r)) : r.length < s.length := by
  unfold tryMatch at h
  split at h
  · next g' r' hf =>
    simp only [Option.some.injEq, Prod.mk.injEq] at h
    obtain ⟨-, hr⟩ := h
    subst hr
    exact fenceMatch_shrinks hf
  · split at h
    · next g' r' hc =>
      simp only [Option.some.injEq, Prod.mk.injEq] at h
      obtain ⟨-, hr⟩ := h
      subst hr
      exact codeTagMatch_shrinks hc
    · split at h
      · next r' hd =>
        simp only [Option.some.injEq, Prod.mk.injEq] at h
        obtain ⟨-, hr⟩ := h
        subst hr
        exact defClassMatch_shrinks hd
      · exact absurd h (by simp)

theorem findallGo_nil (fuel pos : Nat) : findallGo fuel pos [] = [] := by
  cases fuel <;> rfl

/-- Every offset recorded by the scan is at least the starting position. -/
theorem findallGo_pos_le :
    ∀ (fuel : Nat) (pos : Nat) (s : List Char) (x : Nat × (List Char × List Char)),
      x ∈ findallGo fuel pos s → pos ≤ x.1 := by
  intro fuel
  induction fuel with
  | zero => intro pos s x h; simp [findallGo] at h
  | succ n ih =>
    intro pos s x h
    match s with
    | [] => simp [findallGo] at h
    | c :: rest =>
      rw [findallGo] at h
      split at h
      · next groups after _ =>
        rcases List.mem_cons.mp h with h1 | h1
        · subst h1; simp
        · exact Nat.le_trans (Nat.le_add_right _ _) (ih _ _ _ h1)
      · exact Nat.le_trans (Nat.le_succ _) (ih _ _ _ h)

/-- The scan of `findall` is leftmost and non-overlapping, so the start
offsets of successive matches are strictly increasing. -/
theorem findallGo_chain :
    ∀ (fuel : Nat) (pos : Nat) (s : List Char),
      List.Chain' (fun a b => a.1 < b.1) (findallGo fuel pos s) := by
  intro fuel
  induction fuel with
  | zero => intro pos s; simp [findallGo]
  | succ n ih =>
    intro pos s
    match s with
    | [] => simp [findallGo]
    | c :: rest =>
      rw [findallGo]
      split
      · next groups after htm =>
        rw [List.chain'_cons']
        refine ⟨?_, ih _ _⟩
        intro y hy
        have hmem := List.mem_of_mem_head? hy
        have hle := findallGo_pos_le n _ after y hmem
        have hsh := tryMatch_shrinks htm
        omega
      · exact ih _ _

/-- The fuel of `colonScan` is immaterial as soon as it reaches the length of
the scanned text: each candidate colon strictly shortens the text, so the
embedding never cuts a scan short. -/
theorem colonScan_fuel_ext :
    ∀ (n f : Nat), f ≤ n → ∀ u : List Char, u.length ≤ f →
      colonScan f u = colonScan u.length u := by
  intro n
  induction n with
  | zero =>
    intro f hf u hu
    have hf0 : f = 0 := Nat.le_zero.mp hf
    subst hf0
    have : u = [] := List.eq_nil_of_length_eq_zero (Nat.le_zero.mp hu)
    subst this
    rfl
  | succ n ih =>
    intro f hf u hu
    cases f with
    | zero =>
      have : u = [] := List.eq_nil_of_length_eq_zero (Nat.le_zero.mp hu)
      subst this
      rfl
    | succ f' =>
      cases u with
      | nil => rfl
      | cons c us =>
        simp only [List.length_cons] at hu
        rw [colonScan]
        simp only [List.length_cons]
        rw [colonScan]
        split
        · rfl
        · next b after hsp =>
          have hsh : after.length < us.length + 1 := by
            have := splitAtFirst_shrinks (by simp) hsp
            simpa using this
          split
          · split
            · rfl
            · have e1 : colonScan f' after = colonScan after.length after :=
                ih f' (by omega) after (by omega)
              have e2 : colonScan us.length after = colonScan after.length after :=
                ih us.length (by omega) after (by omega)
              rw [e1, e2]
          · have e1 : colonScan f' after = colonScan after.length after :=
              ih f' (by omega) after (by omega)
            have e2 : colonScan us.length after = colonScan after.length after :=
              ih us.length (by omega) after (by omega)
            rw [e1, e2]

/-- The fuel of the `findall` scan is immaterial as soon as it reaches the
length of the text: every match consumes at least one character, so starting
`findallGo` with fuel `s.length` (as `findallPos` does) never truncates the
scan. -/
theorem findallGo_fuel_ext :
    ∀ (n f : Nat), f ≤ n → ∀ (pos : Nat) (s : List Char), s.length ≤ f →
      findallGo f pos s = findallGo s.length pos s := by
  intro n
  induction n with
  | zero =>
    intro f hf pos s hs
    have hf0 : f = 0 := Nat.le_zero.mp hf
    subst hf0
    have : s = [] := List.eq_nil_of_length_eq_zero (Nat.le_zero.mp hs)
    subst this
    rfl
  | succ n ih =>
    intro f hf pos s hs
    cases s with
    | nil => rw [findallGo_nil, findallGo_nil]
    | cons c rest =>
      cases f with
      | zero => simp at hs
      | succ f' =>
        simp only [List.length_cons] at hs
        rw [findallGo]
        simp only [List.length_cons]
        rw [findallGo]
        split
        · next groups after htm =>
          have hsh : after.length < rest.length + 1 := by
            have := tryMatch_shrinks htm
            simpa using this
          congr 1
          have e1 : findallGo f' (pos + (rest.length + 1 - after.length)) after =
              findallGo after.length (pos + (rest.length + 1 - after.length)) after :=
            ih f' (by omega) _ after (by omega)
          have e2 : findallGo rest.length (pos + (rest.length + 1 - after.length)) after =
              findallGo after.length (pos + (rest.length + 1 - after.length)) after :=
            ih rest.length (by omega) _ after (by omega)
          simp only [List.length_cons]
          rw [e1, e2]
        · exact ih f' (by omega) _ rest (by omega)

/-- Any fuel at least the text's length computes the same scan as
`findallPos`. -/
theorem findallGo_fuel_stable (f pos : Nat) (s : List Char) (h : s.length ≤ f) :
    findallGo f pos s = findallGo s.length pos s :=
  findallGo_fuel_ext f f (Nat.le_refl f) pos s h

/-! ### Facts about the cleanup pipeline -/

theorem dropWhile_head_not {p : Char → Bool} :
    ∀ {l c t}, List.dropWhile p l = c :: t → p c = false := by
  intro l
  induction l with
  | nil => intro c t h; simp at h
  | cons a as ih =>
    intro c t h
    rw [List.dropWhile_cons] at h
    split at h
    · exact ih h
    · next hpa =>
      injection h with h1 _
      subst h1
      simpa using hpa

theorem dropWhile_ne_nil_of_ex {p : Char → Bool} {l : List Char}
    (h : ∃ x ∈ l, p x = false) : l.dropWhile p ≠ [] := by
  obtain ⟨x, hx, hpx⟩ := h
  intro hnil
  rw [List.dropWhile_eq_nil_iff] at hnil
  have := hnil x hx
  rw [hpx] at this
  exact absurd this (by simp)

theorem dropWhile_append_single {p : Char → Bool} {c : Char} (hc : p c = false)
    (l : List Char) : (l ++ [c]).dropWhile p = l.dropWhile p ++ [c] := by
  rw [List.dropWhile_append]
  split
  · next he =>
    rw [List.isEmpty_iff] at he
    rw [he]
    simp [List.dropWhile_cons, hc]
  · rfl

theorem rstripWS_getLast {b : List Char} {c : Char}
    (h : (rstripWS b).getLast? = some c) : isSpaceC c = false := by
  unfold rstripWS at h
  rw [List.getLast?_reverse] at h
  cases hd : b.reverse.dropWhile isSpaceC with
  | nil => rw [hd] at h; simp at h
  | cons x t =>
    rw [hd] at h
    simp only [List.head?_cons, Option.some.injEq] at h
    subst h
    exact dropWhile_head_not hd

theorem rstripWS_cons_of_not {c : Char} (hc : isSpaceC c = false) (t : List Char) :
    rstripWS (c :: t) = c :: rstripWS t := by
  unfold rstripWS
  rw [List.reverse_cons, dropWhile_append_single hc, List.reverse_append]
  simp

theorem rstripWS_append_of_ex {y : List Char} (hy : ∃ x ∈ y, isSpaceC x = false)
    (x : List Char) : rstripWS (x ++ y) = x ++ rstripWS y := by
  unfold rstripWS
  rw [List.reverse_append, List.dropWhile_append]
  have hne : y.reverse.dropWhile isSpaceC ≠ [] := by
    apply dropWhile_ne_nil_of_ex
    obtain ⟨a, ha, hpa⟩ := hy
    exact ⟨a, List.mem_reverse.mpr ha, hpa⟩
  rw [if_neg (by simpa [List.isEmpty_iff] using hne)]
  rw [List.reverse_append]
  simp

theorem strip_ne_nil_ex {g : List Char} (h : strip g ≠ []) :
    ∃ x ∈ g, isSpaceC x = false := by
  by_contra hc
  push_neg at hc
  apply h
  unfold strip
  have h1 : g.dropWhile isSpaceC = [] := by
    rw [List.dropWhile_eq_nil_iff]
    intro x hx
    have := hc x hx
    simpa using this
  rw [h1]
  rfl

theorem joinNL_cons_ex {k : List Char} {ks : List (List Char)} {x : Char}
    (hx : x ∈ k) : x ∈ joinNL (k :: ks) := by
  cases ks with
  | nil => simpa [joinNL] using hx
  | cons k2 ks2 =>
    rw [show joinNL (k :: k2 :: ks2) = k ++ ('\n' :: joinNL (k2 :: ks2)) from rfl]
    exact List.mem_append_left _ hx

theorem drop_takeWhile_length (p : Char → Bool) (b : List Char) :
    b.drop (b.takeWhile p).length = b.dropWhile p := by
  nth_rewrite 2 [← List.takeWhile_append_dropWhile p b]
  exact List.drop_left _ _

/-- `cleanLead` splits the block into a whitespace, newline-free margin and
the part of the block from its first non-whitespace character on. -/
theorem cleanLead_decomp (b : List Char) :
    ∃ w', cleanLead b = w' ++ b.dropWhile isSpaceC ∧
      (∀ x ∈ w', isSpaceC x = true) ∧ '\n' ∉ w' := by
  cases hal : afterLastNewline (b.takeWhile isSpaceC) with
  | some r =>
    refine ⟨r, ?_, ?_, afterLastNewline_no_nl hal⟩
    · simp only [cleanLead, hal]
      rw [drop_takeWhile_length]
    · intro x hx
      exact List.mem_takeWhile_imp (afterLastNewline_mem hal x hx)
  | none =>
    refine ⟨b.takeWhile isSpaceC, ?_, fun x hx => List.mem_takeWhile_imp hx,
      afterLastNewline_eq_none hal⟩
    simp only [cleanLead, hal]
    exact (List.takeWhile_append_dropWhile isSpaceC b).symm

/-- The four invariants of every emitted block: non-empty, contains a
non-whitespace character, no leading blank line, no trailing whitespace. -/
theorem clean_block_props {blk b : List Char} (hb : b = rstripWS (cleanLead blk))
    (hex : ∃ x ∈ blk, isSpaceC x = false) :
    b ≠ [] ∧ (∃ ch ∈ b, isSpaceC ch = false) ∧ '\n' ∉ b.takeWhile isSpaceC ∧
      ∀ ch, b.getLast? = some ch → isSpaceC ch = false := by
  obtain ⟨w', hw, hwall, hwnl⟩ := cleanLead_decomp blk
  cases hd : blk.dropWhile isSpaceC with
  | nil => exact absurd hd (dropWhile_ne_nil_of_ex hex)
  | cons c t =>
    have hc : isSpaceC c = false := dropWhile_head_not hd
    have hb2 : b = w' ++ (c :: rstripWS t) := by
      rw [hb, hw, hd, rstripWS_append_of_ex ⟨c, List.mem_cons_self _ _, hc⟩,
        rstripWS_cons_of_not hc]
    refine ⟨?_, ?_, ?_, ?_⟩
    · rw [hb2]; simp
    · exact ⟨c, by rw [hb2]; exact List.mem_append_right _ (List.mem_cons_self _ _), hc⟩
    · rw [hb2, List.takeWhile_append_of_pos hwall,
        List.takeWhile_cons_of_neg (by simp [hc])]
      simpa using hwnl
    · intro ch hch
      rw [hb] at hch
      exact rstripWS_getLast hch

/-- Every block that `processMatch` emits satisfies the four invariants. -/
theorem processMatch_props {m : List Char × List Char} {l : List Char}
    (h : processMatch m = some l) :
    l ≠ [] ∧ (∃ ch ∈ l, isSpaceC ch = false) ∧ '\n' ∉ l.takeWhile isSpaceC ∧
      ∀ ch, l.getLast? = some ch → isSpaceC ch = false := by
  simp only [processMatch] at h
  split at h
  · exact absurd h (by simp)
  · next hne =>
    simp only [Option.some.injEq] at h
    cases hk : [m.1, m.2].filter (fun g => !(strip g).isEmpty) with
    | nil =>
      rw [hk] at hne
      exact absurd (show (joinNL []).isEmpty = true from rfl) hne
    | cons k ks =>
      have hkmem : k ∈ [m.1, m.2].filter (fun g => !(strip g).isEmpty) := by
        rw [hk]; exact List.mem_cons_self _ _
      have hkpred := (List.mem_filter.mp hkmem).2
      have hkstrip : strip k ≠ [] := by
        intro hcon
        rw [hcon] at hkpred
        simp at hkpred
      obtain ⟨x, hxk, hxws⟩ := strip_ne_nil_ex hkstrip
      rw [hk] at h
      exact clean_block_props h.symm ⟨x, joinNL_cons_ex hxk, hxws⟩

/-! ### Single-match extraction, used for the fenced-block claims -/

/-- One unfolding step of the scan when the text is a cons cell and the
alternation matches at the current position. -/
theorem findallGo_cons_match {ch : Char} {rest after : List Char}
    {g : List Char × List Char} (h : tryMatch (ch :: rest) = some (g, after))
    (fuel pos : Nat) :
    findallGo (fuel + 1) pos (ch :: rest) =
      (pos, g) :: findallGo fuel (pos + ((ch :: rest).length - after.length)) after := by
  rw [findallGo, h]

/-- When the first pattern attempt matches the entire text and its groups
survive `processMatch`, extraction returns exactly that one block. -/
theorem extract_of_single_match {s : List Char} {ch : Char} {rest b : List Char}
    {g : List Char × List Char} (hs : s = ch :: rest)
    (htry : tryMatch (ch :: rest) = some (g, []))
    (hproc : processMatch g = some b) :
    extract_code_blocks (String.mk s) = [String.mk b] := by
  subst hs
  unfold extract_code_blocks
  rw [if_neg (fun h => List.cons_ne_nil ch rest (congrArg String.data h))]
  rw [show (String.mk (ch :: rest)).data = ch :: rest from rfl]
  unfold findall findallPos
  simp only [List.length_cons]
  rw [findallGo_cons_match htry]
  simp [findallGo_nil, hproc]

/-- A capture group that is not blank passes the `if m.strip()` filter and the
truthiness check, and is emitted after the two cleanup substitutions. -/
theorem processMatch_single {c : List Char} (hc : strip c ≠ []) :
    processMatch (c, []) = some (rstripWS (cleanLead c)) := by
  have hcne : c ≠ [] := fun h => hc (by rw [h]; rfl)
  have h1 : (!(strip c).isEmpty) = true := by
    simp [List.isEmpty_iff, hc]
  have hfil : ([c, ([] : List Char)].filter fun g => !(strip g).isEmpty) = [c] := by
    rw [List.filter_cons_of_pos (by exact h1), List.filter_cons_of_neg (by decide)]
    rfl
  simp only [processMatch, hfil]
  rw [show joinNL [c] = c from rfl]
  rw [if_neg (by simp [List.isEmpty_iff, hcne])]

/-! ### The claims -/

/-- C3: `extract_code_blocks` applied to the exact string
`"```\nprint(1)\n```"` returns exactly the one-element list `["print(1)"]`. -/
theorem claim_c3_fenced_block : extract_code_blocks ("```\nprint(1)\n```") = [("print(1)")] := by
  decide

/-- C10: when a fenced block's opening fence carries the language tag
`python`, the tag is excluded from the extracted content:
`extract_code_blocks ("```python\nx=1\n```")` returns exactly `["x=1"]`, with
neither the tag nor the fence markers in the returned block. -/
theorem claim_c10_python_tag : extract_code_blocks ("```python\nx=1\n```") = [("x=1")] := by
  decide

/-- C9: `extract_code_blocks` applied to the empty string, and to an
absent/None-equivalent input, returns the empty list rather than raising. -/
theorem claim_c9_empty_input :
    extract_code_blocks_opt none = [] ∧ extract_code_blocks ("") = [] := by
  exact ⟨rfl, by decide⟩

/-- C4: `extract_code_blocks` on `"<code>x=1</code> and <code>y=2</code>"`
returns `["x=1", "y=2"]` in that order; in general the match list the result
is built from is ordered by the first character offset of each match in the
source text (the offsets recorded by the scan are strictly increasing). -/
theorem claim_c4_match_order :
    extract_code_blocks ("<code>x=1</code> and <code>y=2</code>") = [("x=1"), ("y=2")] ∧
    ∀ s : List Char, List.Chain' (fun a b => a.1 < b.1) (findallPos s) := by
  exact ⟨by decide, fun s => findallGo_chain _ _ _⟩

/-- C5: an unterminated fence at end of text is never emitted as a block:
`extract_code_blocks ("```\nprint(1)")` (no closing fence) returns `[]`, and
in general every successful fence match contains a closing triple-backtick
marker after its captured content — a trailing opening with no closing marker
contributes no block. -/
theorem claim_c5_unterminated_fence :
    extract_code_blocks ("```\nprint(1)") = [] ∧
    ∀ s g r : List Char, fenceMatch s = some (g, r) →
      s = ("```python\n").toList ++ (g ++ ((("```").toList) ++ r)) ∨
      s = ("```\n").toList ++ (g ++ ((("```").toList) ++ r)) := by
  refine ⟨by decide, ?_⟩
  intro s g r h
  unfold fenceMatch at h
  split at h
  · next hp =>
    left
    rw [List.isPrefixOf_iff_prefix] at hp
    obtain ⟨t, ht⟩ := hp
    have hdrop : s.drop 10 = t := by
      rw [← ht]; exact List.drop_left' (by decide)
    have happ := splitAtFirst_append h
    rw [hdrop] at happ
    rw [← ht, happ]
  · split at h
    · next hp =>
      right
      rw [List.isPrefixOf_iff_prefix] at hp
      obtain ⟨t, ht⟩ := hp
      have hdrop : s.drop 4 = t := by
        rw [← ht]; exact List.drop_left' (by decide)
      have happ := splitAtFirst_append h
      rw [hdrop] at happ
      rw [← ht, happ]
    · exact absurd h (by simp)

/-- Witness for C5: a concrete terminated fence, at which the structural
characterization is applied with its hypothesis discharged by evaluation. -/
theorem claim_c5_witness :
    ("```\nx```").toList = ("```python\n").toList ++ (("x").toList ++ ((("```").toList) ++ ([] : List Char))) ∨
    ("```\nx```").toList = ("```\n").toList ++ (("x").toList ++ ((("```").toList) ++ ([] : List Char))) :=
  claim_c5_unterminated_fence.2 _ _ _ (by decide)

/-- C6: every string in the list returned by `extract_code_blocks` is
non-empty, contains at least one non-whitespace character, has no leading
blank lines (no newline inside its leading whitespace) and no trailing
whitespace; whitespace-only regions are dropped rather than appended. -/
theorem claim_c6_block_invariants :
    ∀ (s b : String), b ∈ extract_code_blocks s →
      b ≠ ("") ∧ (∃ ch ∈ b.data, isSpaceC ch = false) ∧
      '\n' ∉ b.data.takeWhile isSpaceC ∧
      ∀ ch, b.data.getLast? = some ch → isSpaceC ch = false := by
  intro s b hb
  unfold extract_code_blocks at hb
  split at hb
  · simp at hb
  · obtain ⟨l, hl, hbl⟩ := List.mem_map.mp hb
    obtain ⟨m, -, hpm⟩ := List.mem_filterMap.mp hl
    obtain ⟨h1, h2, h3, h4⟩ := processMatch_props hpm
    have hdata : b.data = l := by rw [← hbl]
    refine ⟨?_, ?_, ?_, ?_⟩
    · intro hcon
      apply h1
      rw [← hdata, hcon]
    · rw [hdata]; exact h2
    · rw [hdata]; exact h3
    · rw [hdata]; exact h4

/-- Witness for C6: the invariants applied to a concrete extracted block. -/
theorem claim_c6_witness :
    ("x=1") ≠ ("") ∧ (∃ ch ∈ ("x=1").data, isSpaceC ch = false) ∧
    '\n' ∉ ("x=1").data.takeWhile isSpaceC ∧
    ∀ ch, ("x=1").data.getLast? = some ch → isSpaceC ch = false :=
  claim_c6_block_invariants ("<code>x=1</code>") ("x=1") (by decide)

/-- C7: for every question string `q`, the built search query is `q` followed
by a single space followed by the fixed domain filter clause (the OR-joined
`site:` terms for exactly geeksforgeeks.org, stackoverflow.com, w3schools.com,
codegrepper.com and realpython.com); hence `q` is a prefix of the query and
the fixed clause is its suffix. -/
theorem claim_c7_query_builder :
    ∀ q : String,
      (search_query q).data = q.data ++ (' ' :: domain_filter_clause.data) ∧
      q.data <+: (search_query q).data ∧
      domain_filter_clause.data <:+ (search_query q).data := by
  intro q
  have h : (search_query q).data = q.data ++ (' ' :: domain_filter_clause.data) := by
    rw [show search_query q =
      q ++ (" site:geeksforgeeks.org OR site:stackoverflow.com OR site:w3schools.com OR site:codegrepper.com OR site:realpython.com") from rfl]
    rw [String.data_append]
    congr 1
  refine ⟨h, ⟨_, h.symm⟩, ⟨q.data ++ [' '], ?_⟩⟩
  rw [h, List.append_assoc]
  rfl

/-- C8: the search adapter never lets a provider exception escape: if client
initialization fails, `search_coding_answers` returns `none` with a
human-readable message and never consults the provider (the result does not
depend on `call`); if the provider call fails, it returns `none` with a
message instead of propagating the exception. -/
theorem claim_c8_adapter_failures :
    ∀ {C R : Type} (init : Except String C)
      (call : C → String → Except String R) (q : String),
      (∀ e, init = Except.error e →
        (search_coding_answers init call q).1 = none ∧
        (search_coding_answers init call q).2 ≠ [] ∧
        ∀ call2 : C → String → Except String R,
          search_coding_answers init call2 q = search_coding_answers init call q) ∧
      (∀ c e, init = Except.ok c → call c (search_query q) = Except.error e →
        (search_coding_answers init call q).1 = none ∧
        (search_coding_answers init call q).2 ≠ []) := by
  intro C R init call q
  constructor
  · intro e he
    subst he
    exact ⟨rfl, by simp [search_coding_answers, get_tavily_client], fun call2 => rfl⟩
  · intro c e hi hc
    subst hi
    constructor
    · simp [search_coding_answers, get_tavily_client, hc]
    · simp [search_coding_answers, get_tavily_client, hc]

/-- Witness for C8: both failure modes at concrete inputs. -/
theorem claim_c8_witness :
    (search_coding_answers (Except.error ("no key") : Except String Unit)
      (fun _ _ => (Except.error ("down") : Except String Unit)) ("q")).1 = none ∧
    (search_coding_answers (Except.ok () : Except String Unit)
      (fun _ _ => (Except.error ("down") : Except String Unit)) ("q")).1 = none :=
  ⟨((claim_c8_adapter_failures (Except.error ("no key"))
      (fun _ _ => (Except.error ("down") : Except String Unit)) ("q")).1 ("no key") rfl).1,
   ((claim_c8_adapter_failures (Except.ok ())
      (fun _ _ => (Except.error ("down") : Except String Unit)) ("q")).2 () ("down") rfl rfl).1⟩

/-- C1 (the code drops def/class blocks): the def/class alternative of the
pattern has no capture group, so `findall` yields the pair of empty groups for
it; the join of the non-blank groups is empty and the block is discarded.  On
the spec's example input the pattern does match (second conjunct: exactly one
match, both groups empty) yet the function returns `[]` instead of the joined
header and body the spec states. -/
theorem claim_c1_def_class_dropped :
    extract_code_blocks ("def f():\n    return 1\n") = [] ∧
    findall (("def f():\n    return 1\n").toList) = [([], [])] := by
  exact ⟨by decide, by decide⟩

/-- C2 counterexample: a fenced region tagged `js` is NOT matched — the
pattern only admits the literal tag `python` (or no tag), so the claim that
any language name is accepted fails at this input. -/
theorem claim_c2_counterexample :
    extract_code_blocks ("```js\ncode\n```") = [] := by
  decide

/-- C2 (amended): triple-backtick-fenced regions are matched only when the
opening fence is bare or tagged exactly `python`; for such a region whose
content `c` is not blank and contains no early closing fence, both variants
extract the cleaned content as the single block. -/
theorem claim_c2_amended_fence_tags :
    ∀ c : List Char,
      splitAtFirst (("```").toList) (c ++ ("```").toList) = some (c, []) →
      strip c ≠ [] →
      extract_code_blocks (String.mk ((("```python\n").toList) ++ (c ++ ("```").toList))) =
        [String.mk (rstripWS (cleanLead c))] ∧
      extract_code_blocks (String.mk ((("```\n").toList) ++ (c ++ ("```").toList))) =
        [String.mk (rstripWS (cleanLead c))] := by
  intro c hsplit hstrip
  have hfence1 : fenceMatch ((("```python\n").toList) ++ (c ++ ("```").toList)) =
      splitAtFirst (("```").toList) (c ++ ("```").toList) := by
    unfold fenceMatch
    rw [if_pos (List.isPrefixOf_iff_prefix.mpr (List.prefix_append _ _))]
    rw [List.drop_left' (show (("```python\n").toList).length = 10 from by decide)]
  have hnp : ¬((("```python\n").toList).isPrefixOf ((("```\n").toList) ++ (c ++ ("```").toList)) = true) := by
    rw [List.isPrefixOf_iff_prefix]
    intro hp
    obtain ⟨t, ht⟩ := hp
    have h3 := congrArg (fun l => l[3]?) ht
    simp only at h3
    rw [List.getElem?_append_left (by decide), List.getElem?_append_left (by decide)] at h3
    exact absurd h3 (by decide)
  have hfence2 : fenceMatch ((("```\n").toList) ++ (c ++ ("```").toList)) =
      splitAtFirst (("```").toList) (c ++ ("```").toList) := by
    unfold fenceMatch
    rw [if_neg hnp]
    rw [if_pos (List.isPrefixOf_iff_prefix.mpr (List.prefix_append _ _))]
    rw [List.drop_left' (show (("```\n").toList).length = 4 from by decide)]
  constructor
  · refine extract_of_single_match
      (show (("```python\n").toList) ++ (c ++ ("```").toList) =
        '`' :: ((("``python\n").toList) ++ (c ++ ("```").toList)) from rfl)
      ?_ (processMatch_single hstrip)
    rw [show ('`' :: ((("``python\n").toList) ++ (c ++ ("```").toList))) =
      (("```python\n").toList) ++ (c ++ ("```").toList) from rfl]
    unfold tryMatch
    rw [hfence1, hsplit]
  · refine extract_of_single_match
      (show (("```\n").toList) ++ (c ++ ("```").toList) =
        '`' :: ((("``\n").toList) ++ (c ++ ("```").toList)) from rfl)
      ?_ (processMatch_single hstrip)
    rw [show ('`' :: ((("``\n").toList) ++ (c ++ ("```").toList))) =
      (("```\n").toList) ++ (c ++ ("```").toList) from rfl]
    unfold tryMatch
    rw [hfence2, hsplit]

/-- Witness for C2 (amended): a concrete non-blank content. -/
theorem claim_c2_amended_witness :
    extract_code_blocks (String.mk ((("```python\n").toList) ++ ((("x=1\n").toList) ++ ("```").toList))) =
      [String.mk (rstripWS (cleanLead (("x=1\n").toList)))] ∧
    extract_code_blocks (String.mk ((("```\n").toList) ++ ((("x=1\n").toList) ++ ("```").toList))) =
      [String.mk (rstripWS (cleanLead (("x=1\n").toList)))] :=
  claim_c2_amended_fence_tags (("x=1\n").toList) (by decide) (by decide)

end CodeSearch
